import Mathlib

/-!
Verification of the grouping/reorganization core of the grouping-tool
repository (src/main.rs). The data model and the three algorithmic
functions (group_index_to_letter, split_into_small_groups, group_singletons,
reorganize_batch_groups, reorganize_incomplete_groups) are embedded as
executable Lean functions, and the testable properties of the specification
are settled against them.
-/

namespace GroupingTool

/-- Student identifiers are opaque strings (type StudentId = String in main.rs). -/
abbrev StudentId := String

/-- A group is its ordered member list (struct Group has a members: Vec field;
the wrapper is represented by the list itself). -/
abbrev Group := List StudentId

/-- Total member count of a list of groups: the sum of the group sizes. -/
def totalMembers (gs : List Group) : Nat := (gs.map List.length).sum

/-- The alphabet string used by group_index_to_letter (main.rs line 13). -/
def alphabet : List Char := "ABCDEFGHIJKLMNOPQRSTUVWXYZ".toList

/-- Embeds group_index_to_letter (main.rs lines 12-26). The Rust function calls
unwrap on the character lookup; the lookup is modelled by the Option-valued
list indexing, so an out-of-range first letter makes the result none instead
of a panic. -/
def group_index_to_letter (index : Nat) : Option String :=
  if index < alphabet.length then
    (alphabet.get? index).map (fun c => String.mk [c])
  else
    let first := index / 26 - 1
    let second := index % 26
    match alphabet.get? first, alphabet.get? second with
    | some c1, some c2 => some (String.mk [c1, c2])
    | _, _ => none

/-- Embeds split_into_small_groups (main.rs lines 252-294). The Rust while loop
consumes, from the front, 3 members when at least 3 remain, except 2 when
exactly 4 remain, and otherwise all remaining members (the n = 0 and n = 1
early returns behave the same way). The match below mirrors exactly that case
analysis on the remaining count: lengths 0, 1, 2, 3, 4, and 5-or-more. -/
def split_into_small_groups : List StudentId → List Group
  | [] => []
  | [a] => [[a]]
  | [a, b] => [[a, b]]
  | [a, b, c] => [[a, b, c]]
  | [a, b, c, d] => [[a, b], [c, d]]
  | a :: b :: c :: rest => [a, b, c] :: split_into_small_groups rest

/-- Embeds group_singletons (main.rs lines 298-310): while at least 2 members
remain, drain min(3, len) from the front (2 when exactly 4 remain) into a new
group; the function returns the formed groups together with the members left
in the drained vector (0 or 1 of them). -/
def group_singletons : List StudentId → List Group × List StudentId
  | [] => ([], [])
  | [a] => ([], [a])
  | [a, b] => ([[a, b]], [])
  | [a, b, c] => ([[a, b, c]], [])
  | [a, b, c, d] => ([[a, b], [c, d]], [])
  | a :: b :: c :: rest =>
    let p := group_singletons rest
    ([a, b, c] :: p.1, p.2)

/-- Models the two identical split passes of reorganize_batch_groups
(main.rs lines 321-331 and 402-411): groups of at most 3 members are kept
as-is and larger groups are replaced by their split_into_small_groups chunks. -/
def splitPass (gs : List Group) : List Group :=
  gs.flatMap (fun g => if g.length ≤ 3 then [g] else split_into_small_groups g)

/-- Models offering pending singletons to the last emitted group
(main.rs lines 351-357 and 377-383): if a last group exists, move
min(3 - its size, pending size) members from the front of pending into it. -/
def fillLast (result : List Group) (pending : List StudentId) :
    List Group × List StudentId :=
  match result.getLast? with
  | none => (result, pending)
  | some lastg =>
    let tk := min (3 - lastg.length) pending.length
    (result.dropLast ++ [lastg ++ pending.take tk], pending.drop tk)

/-- Models the shared snippet of reorganize_batch_groups that runs when pending
singletons exist (main.rs lines 350-361 and 375-386): offer them to the last
emitted group, then form 2-3 person groups from the remainder. -/
def batchAbsorb (st : List Group × List StudentId) : List Group × List StudentId :=
  if st.2.isEmpty then st
  else
    let f := fillLast st.1 st.2
    let p := group_singletons f.2
    (f.1 ++ p.1, p.2)

/-- Embeds one iteration of the second pass of reorganize_batch_groups
(main.rs lines 337-372) on the state (result_groups, pending_singletons):
a singleton group joins the pending pool (flushed at size 2 or 3); any other
group first triggers the absorb snippet, then a remaining lone pending member
is prepended to the current group when it has fewer than 3 members. -/
def batchStep (st : List Group × List StudentId) (g : Group) :
    List Group × List StudentId :=
  if g.length = 1 then
    let pending := st.2 ++ g
    if 2 ≤ pending.length ∧ pending.length ≤ 3 then (st.1 ++ [pending], [])
    else (st.1, pending)
  else
    let st1 := batchAbsorb st
    if st1.2.length = 1 ∧ g.length < 3 then (st1.1 ++ [st1.2 ++ g], [])
    else (st1.1 ++ [g], st1.2)

/-- Embeds the trailing-singleton handling of reorganize_batch_groups
(main.rs lines 374-400), run once after the second-pass loop: absorb the
pending singletons, and if one member is still left, append it to the last
group (even beyond 3 members), or emit it as a group of one when no group
exists at all. -/
def batchEnd (result : List Group) (pending : List StudentId) : List Group :=
  if pending.isEmpty then result
  else
    let st1 := batchAbsorb (result, pending)
    if st1.2.length = 1 then
      match st1.1.getLast? with
      | some lastg => st1.1.dropLast ++ [lastg ++ st1.2]
      | none => st1.1 ++ [st1.2]
    else st1.1

/-- Embeds reorganize_batch_groups (main.rs lines 314-414): the split pass,
the singleton-merging pass folded over the split groups, the trailing-singleton
handling, and the final re-split pass. -/
def reorganize_batch_groups (groups : List Group) : List Group :=
  if groups.isEmpty then groups
  else
    let st := (splitPass groups).foldl batchStep ([], [])
    splitPass (batchEnd st.1 st.2)

/-- Embeds the complete-group separation of reorganize_incomplete_groups
(main.rs lines 421-429): groups satisfying is_full (3 or more members) are
pushed to final_groups in their original order. -/
def completeGroups (groups : List Group) : List Group :=
  groups.filter (fun g => decide (3 ≤ g.length))

/-- Embeds the pool of members collected from the non-full groups, in original
order (main.rs lines 421-429). -/
def incompleteMembers (groups : List Group) : List StudentId :=
  (groups.filter (fun g => !decide (3 ≤ g.length))).flatten

/-- Embeds reorganize_incomplete_groups (main.rs lines 416-508). The in-place
random shuffle of the pool is modelled by the extra argument: every theorem
below quantifies over all permutations shuffled of incompleteMembers groups.
When the pool has exactly one member, the last complete group donates its last
member (Vec pop) if it has exactly 3 members, otherwise the lone member is
appended to it; with no complete group at all the lone member is only reported
as a console warning and no group is emitted. Otherwise the pool is consumed
front-to-back in chunks of 2 or 3 members; the remaining-equals-1 loop branch
is unreachable for pools of size at least 2 (proved below), so the chunk loop
coincides with split_into_small_groups on every reachable pool. -/
def reorganize_incomplete_groups (groups : List Group) (shuffled : List StudentId) :
    List Group :=
  let finalGroups := completeGroups groups
  if shuffled.length = 1 then
    match finalGroups.getLast? with
    | none => finalGroups
    | some lastg =>
      if lastg.length = 3 then
        finalGroups.dropLast ++ [lastg.dropLast, lastg.getLastD "" :: shuffled]
      else
        finalGroups.dropLast ++ [lastg ++ shuffled]
  else
    finalGroups ++ split_into_small_groups shuffled

/-- The chunk size consumed by one iteration of the pool loop of
reorganize_incomplete_groups (main.rs lines 467-505), as a function of the
remaining member count: 3 when at least 3 remain (2 when exactly 4 remain),
otherwise everything remaining (at remaining = 1 the loop advances by 1 only
when a previously emitted group exists). -/
def loopConsume (remaining : Nat) : Nat :=
  if 3 ≤ remaining then (if remaining = 4 then 2 else 3) else remaining

/-- The sequence of values taken by remaining at the start of each iteration of
the pool loop of reorganize_incomplete_groups (main.rs lines 467-505), starting
from a pool of r members. -/
def loopStates (r : Nat) : List Nat :=
  if _h : r = 0 then [] else r :: loopStates (r - loopConsume r)
termination_by r
decreasing_by
  have h1 : 1 ≤ loopConsume r := by
    unfold loopConsume
    split
    · split <;> omega
    · omega
  omega

/-- The loop invariant of the second pass of reorganize_batch_groups, for a
consumed prefix of total member count t: every emitted group has 2 or 3
members, at most one singleton is pending, members are conserved, and an empty
result means at most one member was consumed. -/
structure BatchInv (t : Nat) (st : List Group × List StudentId) : Prop where
  sizes : ∀ g ∈ st.1, 2 ≤ g.length ∧ g.length ≤ 3
  pending_le : st.2.length ≤ 1
  conserve : totalMembers st.1 + st.2.length = t
  empty_le : st.1 = [] → t ≤ 1

theorem totalMembers_nil : totalMembers [] = 0 := rfl

theorem totalMembers_cons (g : Group) (gs : List Group) :
    totalMembers (g :: gs) = g.length + totalMembers gs := by
  simp [totalMembers]

theorem totalMembers_append (a b : List Group) :
    totalMembers (a ++ b) = totalMembers a + totalMembers b := by
  simp [totalMembers]

theorem eq_nil_or_append_single {α : Type} (l : List α) :
    l = [] ∨ ∃ t b, l = t ++ [b] := by
  rcases List.eq_nil_or_concat l with rfl | ⟨t, b, rfl⟩
  · exact Or.inl rfl
  · exact Or.inr ⟨t, b, by simp⟩

theorem split_into_small_groups_flatten (l : List StudentId) :
    (split_into_small_groups l).flatten = l := by
  induction l using split_into_small_groups.induct <;>
    simp [split_into_small_groups, *]

theorem split_into_small_groups_sizes (l : List StudentId) (h : 2 ≤ l.length) :
    ∀ c ∈ split_into_small_groups l, c.length = 2 ∨ c.length = 3 := by
  induction l using split_into_small_groups.induct with
  | case1 => simp [split_into_small_groups]
  | case2 a => simp at h
  | case3 a b =>
    intro c hc
    simp [split_into_small_groups] at hc
    simp [hc]
  | case4 a b c =>
    intro c hc
    simp [split_into_small_groups] at hc
    simp [hc]
  | case5 a b c d =>
    intro x hx
    rcases (by simpa [split_into_small_groups] using hx : x = [a, b] ∨ x = [c, d]) with
      rfl | rfl <;> simp
  | case6 a b c rest h1 h2 ih =>
    intro x hx
    have hrest : 2 ≤ rest.length := by
      rcases rest with _ | ⟨y, _ | ⟨z, t⟩⟩ <;> simp_all
    rcases (by simpa [split_into_small_groups] using hx :
        x = [a, b, c] ∨ x ∈ split_into_small_groups rest) with rfl | hx'
    · simp
    · exact ih hrest x hx'

theorem split_into_small_groups_total (l : List StudentId) :
    totalMembers (split_into_small_groups l) = l.length := by
  have h := congrArg List.length (split_into_small_groups_flatten l)
  simpa [totalMembers, List.length_flatten] using h

theorem group_singletons_total (l : List StudentId) :
    totalMembers (group_singletons l).1 + (group_singletons l).2.length = l.length := by
  induction l using group_singletons.induct with
  | case1 => rfl
  | case2 a => rfl
  | case3 a b => rfl
  | case4 a b c => rfl
  | case5 a b c d => rfl
  | case6 a b c rest h1 h2 ih =>
    have heq : group_singletons (a :: b :: c :: rest) =
        ([a, b, c] :: (group_singletons rest).1, (group_singletons rest).2) := by
      simp [group_singletons]
    rw [heq, totalMembers_cons]
    simp only [List.length_cons, List.length_nil]
    omega

theorem group_singletons_small (l : List StudentId) (h : l.length ≤ 1) :
    group_singletons l = ([], l) := by
  rcases l with _ | ⟨a, _ | ⟨b, t⟩⟩
  · rfl
  · rfl
  · simp at h

theorem group_singletons_left_le_one (l : List StudentId) :
    (group_singletons l).2.length ≤ 1 := by
  induction l using group_singletons.induct <;> simp [group_singletons, *]

theorem splitPass_nil : splitPass [] = [] := rfl

theorem splitPass_cons (g : Group) (gs : List Group) :
    splitPass (g :: gs) =
      (if g.length ≤ 3 then [g] else split_into_small_groups g) ++ splitPass gs := by
  simp [splitPass]

theorem splitPass_total (gs : List Group) :
    totalMembers (splitPass gs) = totalMembers gs := by
  induction gs with
  | nil => rfl
  | cons g gs ih =>
    rw [splitPass_cons, totalMembers_append, totalMembers_cons, ih]
    by_cases h : g.length ≤ 3
    · simp [h, totalMembers_cons, totalMembers_nil]
    · simp [h, split_into_small_groups_total]

theorem splitPass_sizes_of_ne_nil (gs : List Group) (h : ∀ g ∈ gs, g ≠ []) :
    ∀ c ∈ splitPass gs, 1 ≤ c.length ∧ c.length ≤ 3 := by
  induction gs with
  | nil => simp [splitPass_nil]
  | cons g gs ih =>
    intro c hc
    rw [splitPass_cons] at hc
    rcases List.mem_append.mp hc with hc1 | hc2
    · by_cases h3 : g.length ≤ 3
      · rw [if_pos h3] at hc1
        have hcg : c = g := by simpa using hc1
        subst hcg
        exact ⟨List.length_pos.mpr (h c (by simp)), h3⟩
      · rw [if_neg h3] at hc1
        have := split_into_small_groups_sizes g (by omega) c hc1
        omega
    · exact ih (fun x hx => h x (by simp [hx])) c hc2

theorem splitPass_sizes_of_le_four (gs : List Group)
    (h : ∀ g ∈ gs, 2 ≤ g.length ∧ g.length ≤ 4) :
    ∀ c ∈ splitPass gs, 2 ≤ c.length ∧ c.length ≤ 3 := by
  induction gs with
  | nil => simp [splitPass_nil]
  | cons g gs ih =>
    intro c hc
    rw [splitPass_cons] at hc
    rcases List.mem_append.mp hc with hc1 | hc2
    · by_cases h3 : g.length ≤ 3
      · rw [if_pos h3] at hc1
        have hcg : c = g := by simpa using hc1
        subst hcg
        exact ⟨(h c (by simp)).1, h3⟩
      · rw [if_neg h3] at hc1
        have := split_into_small_groups_sizes g (by omega) c hc1
        omega
    · exact ih (fun x hx => h x (by simp [hx])) c hc2

theorem splitPass_id (gs : List Group) (h : ∀ g ∈ gs, g.length ≤ 3) :
    splitPass gs = gs := by
  induction gs with
  | nil => rfl
  | cons g gs ih =>
    rw [splitPass_cons, if_pos (h g (by simp)), ih (fun x hx => h x (by simp [hx]))]
    rfl

theorem fillLast_nil (p : List StudentId) : fillLast [] p = ([], p) := rfl

theorem fillLast_concat (r : List Group) (lastg : Group) (p : List StudentId) :
    fillLast (r ++ [lastg]) p =
      (r ++ [lastg ++ p.take (min (3 - lastg.length) p.length)],
        p.drop (min (3 - lastg.length) p.length)) := by
  simp [fillLast, List.getLast?_concat]

theorem fillLast_total (r : List Group) (p : List StudentId) :
    totalMembers (fillLast r p).1 + (fillLast r p).2.length =
      totalMembers r + p.length := by
  rcases eq_nil_or_append_single r with rfl | ⟨r', lastg, rfl⟩
  · simp [fillLast_nil]
  · rw [fillLast_concat]
    simp [totalMembers_append, totalMembers_cons, List.length_take, List.length_drop]
    omega

theorem batchAbsorb_total (st : List Group × List StudentId) :
    totalMembers (batchAbsorb st).1 + (batchAbsorb st).2.length =
      totalMembers st.1 + st.2.length := by
  obtain ⟨res, pen⟩ := st
  by_cases hp : pen.isEmpty
  · simp [batchAbsorb, hp]
  · simp only [batchAbsorb, hp, Bool.false_eq_true, if_false]
    rw [totalMembers_append]
    have h1 := fillLast_total res pen
    have h2 := group_singletons_total (fillLast res pen).2
    omega

theorem batchAbsorb_left_le_one (st : List Group × List StudentId) :
    (batchAbsorb st).2.length ≤ 1 := by
  obtain ⟨res, pen⟩ := st
  by_cases hp : pen.isEmpty
  · have : pen = [] := by simpa using hp
    simp [batchAbsorb, hp, this]
  · simp only [batchAbsorb, hp, Bool.false_eq_true, if_false]
    exact group_singletons_left_le_one _

theorem fillLast_concat_full (r' : List Group) (lastg : Group) (s : StudentId)
    (h3 : lastg.length = 3) : fillLast (r' ++ [lastg]) [s] = (r' ++ [lastg], [s]) := by
  rw [fillLast_concat]
  simp [h3]

theorem fillLast_concat_two (r' : List Group) (lastg : Group) (s : StudentId)
    (h2 : lastg.length = 2) :
    fillLast (r' ++ [lastg]) [s] = (r' ++ [lastg ++ [s]], []) := by
  rw [fillLast_concat]
  norm_num [h2]

theorem batchAbsorb_nil_left (s : StudentId) : batchAbsorb ([], [s]) = ([], [s]) := by
  simp [batchAbsorb, fillLast_nil, group_singletons]

theorem batchAbsorb_last_full (r' : List Group) (lastg : Group) (s : StudentId)
    (h3 : lastg.length = 3) :
    batchAbsorb (r' ++ [lastg], [s]) = (r' ++ [lastg], [s]) := by
  simp [batchAbsorb, fillLast_concat_full r' lastg s h3, group_singletons]

theorem batchAbsorb_last_two (r' : List Group) (lastg : Group) (s : StudentId)
    (h2 : lastg.length = 2) :
    batchAbsorb (r' ++ [lastg], [s]) = (r' ++ [lastg ++ [s]], []) := by
  simp [batchAbsorb, fillLast_concat_two r' lastg s h2, group_singletons]

theorem batchAbsorb_inv (t : Nat) (res : List Group) (pen : List StudentId)
    (h : BatchInv t (res, pen)) : BatchInv t (batchAbsorb (res, pen)) := by
  by_cases hp : pen.isEmpty
  · simpa [batchAbsorb, hp] using h
  · have hpe : pen ≠ [] := by simpa [List.isEmpty_iff] using hp
    have hple : pen.length ≤ 1 := h.pending_le
    have hp1 : pen.length = 1 := by
      have h0 : 0 < pen.length := List.length_pos.mpr hpe
      omega
    obtain ⟨s, rfl⟩ := List.length_eq_one.mp hp1
    have hc : totalMembers res + 1 = t := by
      have := h.conserve
      simpa using this
    rcases eq_nil_or_append_single res with rfl | ⟨r', lastg, rfl⟩
    · rw [batchAbsorb_nil_left]
      exact h
    · have hl := h.sizes lastg (by simp)
      by_cases h3 : lastg.length = 3
      · rw [batchAbsorb_last_full r' lastg s h3]
        exact h
      · have h2 : lastg.length = 2 := by omega
        rw [batchAbsorb_last_two r' lastg s h2]
        refine ⟨?_, by simp, ?_, by simp⟩
        · intro x hx
          rcases List.mem_append.mp hx with hx1 | hx2
          · exact h.sizes x (by simp [hx1])
          · have hxe : x = lastg ++ [s] := by simpa using hx2
            subst hxe
            simp [List.length_append, h2]
        · simp only [totalMembers_append, totalMembers_cons, totalMembers_nil,
            List.length_append, List.length_nil, List.length_cons]
          have := h.conserve
          simp only [totalMembers_append, totalMembers_cons, totalMembers_nil,
            List.length_cons, List.length_nil] at this
          omega

theorem batchStep_singleton_flush (res : List Group) (pen : List StudentId)
    (g : Group) (hg : g.length = 1)
    (hk : 2 ≤ (pen ++ g).length ∧ (pen ++ g).length ≤ 3) :
    batchStep (res, pen) g = (res ++ [pen ++ g], []) := by
  unfold batchStep
  rw [if_pos hg]
  show (if 2 ≤ (pen ++ g).length ∧ (pen ++ g).length ≤ 3 then
    (res ++ [pen ++ g], ([] : List StudentId)) else (res, pen ++ g)) = _
  rw [if_pos hk]

theorem batchStep_singleton_hold (res : List Group) (pen : List StudentId)
    (g : Group) (hg : g.length = 1)
    (hk : ¬(2 ≤ (pen ++ g).length ∧ (pen ++ g).length ≤ 3)) :
    batchStep (res, pen) g = (res, pen ++ g) := by
  unfold batchStep
  rw [if_pos hg]
  show (if 2 ≤ (pen ++ g).length ∧ (pen ++ g).length ≤ 3 then
    (res ++ [pen ++ g], ([] : List StudentId)) else (res, pen ++ g)) = _
  rw [if_neg hk]

theorem batchStep_merge (res : List Group) (pen : List StudentId) (g : Group)
    (hg : ¬g.length = 1)
    (hm : (batchAbsorb (res, pen)).2.length = 1 ∧ g.length < 3) :
    batchStep (res, pen) g =
      ((batchAbsorb (res, pen)).1 ++ [(batchAbsorb (res, pen)).2 ++ g], []) := by
  unfold batchStep
  rw [if_neg hg]
  show (if (batchAbsorb (res, pen)).2.length = 1 ∧ g.length < 3 then
      ((batchAbsorb (res, pen)).1 ++ [(batchAbsorb (res, pen)).2 ++ g],
        ([] : List StudentId))
    else ((batchAbsorb (res, pen)).1 ++ [g], (batchAbsorb (res, pen)).2)) = _
  rw [if_pos hm]

theorem batchStep_push (res : List Group) (pen : List StudentId) (g : Group)
    (hg : ¬g.length = 1)
    (hm : ¬((batchAbsorb (res, pen)).2.length = 1 ∧ g.length < 3)) :
    batchStep (res, pen) g =
      ((batchAbsorb (res, pen)).1 ++ [g], (batchAbsorb (res, pen)).2) := by
  unfold batchStep
  rw [if_neg hg]
  show (if (batchAbsorb (res, pen)).2.length = 1 ∧ g.length < 3 then
      ((batchAbsorb (res, pen)).1 ++ [(batchAbsorb (res, pen)).2 ++ g],
        ([] : List StudentId))
    else ((batchAbsorb (res, pen)).1 ++ [g], (batchAbsorb (res, pen)).2)) = _
  rw [if_neg hm]

theorem batchStep_total (st : List Group × List StudentId) (g : Group) :
    totalMembers (batchStep st g).1 + (batchStep st g).2.length =
      totalMembers st.1 + st.2.length + g.length := by
  obtain ⟨res, pen⟩ := st
  by_cases hg : g.length = 1
  · by_cases hk : 2 ≤ (pen ++ g).length ∧ (pen ++ g).length ≤ 3
    · rw [batchStep_singleton_flush res pen g hg hk]
      simp only [totalMembers_append, totalMembers_cons, totalMembers_nil,
        List.length_append, List.length_nil]
      omega
    · rw [batchStep_singleton_hold res pen g hg hk]
      simp only [List.length_append]
      omega
  · have habs : totalMembers (batchAbsorb (res, pen)).1 +
        (batchAbsorb (res, pen)).2.length = totalMembers res + pen.length :=
      batchAbsorb_total (res, pen)
    by_cases hm : (batchAbsorb (res, pen)).2.length = 1 ∧ g.length < 3
    · rw [batchStep_merge res pen g hg hm]
      simp only [totalMembers_append, totalMembers_cons, totalMembers_nil,
        List.length_append, List.length_nil]
      omega
    · rw [batchStep_push res pen g hg hm]
      simp only [totalMembers_append, totalMembers_cons, totalMembers_nil]
      omega

theorem foldl_batchStep_total (gs : List Group) :
    ∀ st : List Group × List StudentId,
      totalMembers (gs.foldl batchStep st).1 + (gs.foldl batchStep st).2.length =
        totalMembers st.1 + st.2.length + totalMembers gs := by
  induction gs with
  | nil =>
    intro st
    simp [totalMembers_nil]
  | cons g gs ih =>
    intro st
    rw [List.foldl_cons, totalMembers_cons]
    have h1 := ih (batchStep st g)
    have h2 := batchStep_total st g
    omega

theorem batchStep_inv (t : Nat) (st : List Group × List StudentId) (g : Group)
    (h : BatchInv t st) (hg1 : 1 ≤ g.length) (hg3 : g.length ≤ 3) :
    BatchInv (t + g.length) (batchStep st g) := by
  obtain ⟨res, pen⟩ := st
  have hc : totalMembers res + pen.length = t := h.conserve
  have hpl : pen.length ≤ 1 := h.pending_le
  by_cases hg : g.length = 1
  · by_cases hk : 2 ≤ (pen ++ g).length ∧ (pen ++ g).length ≤ 3
    · rw [batchStep_singleton_flush res pen g hg hk]
      refine ⟨?_, by simp, ?_, by simp⟩
      · intro x hx
        rcases List.mem_append.mp hx with hx1 | hx2
        · exact h.sizes x hx1
        · have hxe : x = pen ++ g := by simpa using hx2
          subst hxe
          exact hk
      · simp only [totalMembers_append, totalMembers_cons, totalMembers_nil,
          List.length_append, List.length_nil]
        omega
    · rw [batchStep_singleton_hold res pen g hg hk]
      have hk' : pen.length = 0 := by
        simp only [List.length_append, hg] at hk
        omega
      refine ⟨h.sizes, ?_, ?_, ?_⟩
      · simp [List.length_append, hg, hk']
      · simp only [List.length_append, hg]
        omega
      · intro hres
        have hres' : res = [] := hres
        subst hres'
        have h0 : totalMembers ([] : List Group) = 0 := rfl
        omega
  · have habs := batchAbsorb_inv t res pen h
    by_cases hm : (batchAbsorb (res, pen)).2.length = 1 ∧ g.length < 3
    · rw [batchStep_merge res pen g hg hm]
      refine ⟨?_, by simp, ?_, by simp⟩
      · intro x hx
        rcases List.mem_append.mp hx with hx1 | hx2
        · exact habs.sizes x hx1
        · have hxe : x = (batchAbsorb (res, pen)).2 ++ g := by simpa using hx2
          subst hxe
          simp only [List.length_append]
          omega
      · have htot1 : totalMembers (batchAbsorb (res, pen)).1 +
            (batchAbsorb (res, pen)).2.length = t := habs.conserve
        simp only [totalMembers_append, totalMembers_cons, totalMembers_nil,
          List.length_append, List.length_nil]
        omega
    · rw [batchStep_push res pen g hg hm]
      refine ⟨?_, habs.pending_le, ?_, by simp⟩
      · intro x hx
        rcases List.mem_append.mp hx with hx1 | hx2
        · exact habs.sizes x hx1
        · have hxe : x = g := by simpa using hx2
          subst hxe
          omega
      · have htot1 : totalMembers (batchAbsorb (res, pen)).1 +
            (batchAbsorb (res, pen)).2.length = t := habs.conserve
        simp only [totalMembers_append, totalMembers_cons, totalMembers_nil]
        omega

theorem foldl_batchStep_inv (gs : List Group) :
    ∀ (t : Nat) (st : List Group × List StudentId), BatchInv t st →
      (∀ g ∈ gs, 1 ≤ g.length ∧ g.length ≤ 3) →
      BatchInv (t + totalMembers gs) (gs.foldl batchStep st) := by
  induction gs with
  | nil =>
    intro t st h _
    simpa [totalMembers_nil] using h
  | cons g gs ih =>
    intro t st h hsz
    rw [List.foldl_cons, totalMembers_cons]
    have h1 := batchStep_inv t st g h (hsz g (by simp)).1 (hsz g (by simp)).2
    have h2 := ih (t + g.length) (batchStep st g) h1 (fun x hx => hsz x (by simp [hx]))
    have he : t + (g.length + totalMembers gs) = t + g.length + totalMembers gs := by
      omega
    rw [he]
    exact h2

theorem batchEnd_total (r : List Group) (p : List StudentId) :
    totalMembers (batchEnd r p) = totalMembers r + p.length := by
  by_cases hp : p.isEmpty
  · have hpe : p = [] := by simpa [List.isEmpty_iff] using hp
    subst hpe
    simp [batchEnd]
  · have habs := batchAbsorb_total (r, p)
    have hle := batchAbsorb_left_le_one (r, p)
    rcases hab : batchAbsorb (r, p) with ⟨r1, p1⟩
    rw [hab] at habs hle
    simp only at habs hle
    by_cases hm : p1.length = 1
    · rcases eq_nil_or_append_single r1 with rfl | ⟨r2, lastg, rfl⟩
      · have hend : batchEnd r p = [] ++ [p1] := by
          simp [batchEnd, hp, hab, hm]
        rw [hend]
        simp only [List.nil_append, totalMembers_cons, totalMembers_nil,
          totalMembers_append] at habs ⊢
        omega
      · have hend : batchEnd r p = r2 ++ [lastg ++ p1] := by
          simp [batchEnd, hp, hab, hm, List.getLast?_concat]
        rw [hend]
        simp only [totalMembers_append, totalMembers_cons, totalMembers_nil,
          List.length_append] at habs ⊢
        omega
    · have hp0 : p1.length = 0 := by omega
      have hend : batchEnd r p = r1 := by
        simp [batchEnd, hp, hab, hm]
      rw [hend]
      omega

theorem batchEnd_sizes (t : Nat) (r : List Group) (p : List StudentId)
    (h : BatchInv t (r, p)) (ht : 2 ≤ t) :
    ∀ g ∈ batchEnd r p, 2 ≤ g.length ∧ g.length ≤ 4 := by
  by_cases hp : p.isEmpty
  · have hpe : p = [] := by simpa [List.isEmpty_iff] using hp
    subst hpe
    have hend : batchEnd r [] = r := by simp [batchEnd]
    rw [hend]
    intro g hg
    have := h.sizes g hg
    omega
  · have habs := batchAbsorb_inv t r p h
    rcases hab : batchAbsorb (r, p) with ⟨r1, p1⟩
    rw [hab] at habs
    have hsz1 : ∀ x ∈ r1, 2 ≤ x.length ∧ x.length ≤ 3 := habs.sizes
    have hpl1 : p1.length ≤ 1 := habs.pending_le
    have hemp1 : r1 = [] → t ≤ 1 := habs.empty_le
    by_cases hm : p1.length = 1
    · rcases eq_nil_or_append_single r1 with rfl | ⟨r2, lastg, rfl⟩
      · exact absurd (hemp1 rfl) (by omega)
      · have hend : batchEnd r p = r2 ++ [lastg ++ p1] := by
          simp [batchEnd, hp, hab, hm, List.getLast?_concat]
        rw [hend]
        intro g hg
        rcases List.mem_append.mp hg with hg1 | hg2
        · have := hsz1 g (by simp [hg1])
          omega
        · have hge : g = lastg ++ p1 := by simpa using hg2
          subst hge
          have := hsz1 lastg (by simp)
          simp only [List.length_append]
          omega
    · have hp0 : p1.length = 0 := by omega
      have hend : batchEnd r p = r1 := by
        simp [batchEnd, hp, hab, hm]
      rw [hend]
      intro g hg
      have := hsz1 g hg
      omega

theorem batchStep_empty_pending (res : List Group) (g : Group) (hg : g.length ≠ 1) :
    batchStep (res, []) g = (res ++ [g], []) := by
  simp [batchStep, hg, batchAbsorb]

theorem foldl_batchStep_no_singleton (gs : List Group) :
    ∀ res : List Group, (∀ g ∈ gs, g.length ≠ 1) →
      gs.foldl batchStep (res, []) = (res ++ gs, []) := by
  induction gs with
  | nil =>
    intro res _
    simp
  | cons g gs ih =>
    intro res h
    rw [List.foldl_cons, batchStep_empty_pending res g (h g (by simp)),
      ih (res ++ [g]) (fun x hx => h x (by simp [hx]))]
    simp

theorem reorganize_batch_total (groups : List Group) :
    totalMembers (reorganize_batch_groups groups) = totalMembers groups := by
  by_cases hemp : groups.isEmpty
  · have hpe : groups = [] := by simpa [List.isEmpty_iff] using hemp
    subst hpe
    rfl
  · rcases hst : (splitPass groups).foldl batchStep ([], []) with ⟨r1, p1⟩
    have h1 := foldl_batchStep_total (splitPass groups) ([], [])
    rw [hst] at h1
    simp only [totalMembers_nil, List.length_nil] at h1
    rw [splitPass_total] at h1
    have hout : reorganize_batch_groups groups = splitPass (batchEnd r1 p1) := by
      simp [reorganize_batch_groups, hemp, hst]
    rw [hout, splitPass_total, batchEnd_total]
    omega

theorem reorganize_batch_sizes (groups : List Group) (hne : ∀ g ∈ groups, g ≠ [])
    (ht : totalMembers groups ≠ 1) :
    ∀ g ∈ reorganize_batch_groups groups, 2 ≤ g.length ∧ g.length ≤ 3 := by
  by_cases hemp : groups.isEmpty
  · have hpe : groups = [] := by simpa [List.isEmpty_iff] using hemp
    subst hpe
    simp [reorganize_batch_groups]
  · have hg0 : groups ≠ [] := by simpa [List.isEmpty_iff] using hemp
    have ht2 : 2 ≤ totalMembers groups := by
      rcases groups with _ | ⟨g, gs⟩
      · exact absurd rfl hg0
      · have h1 : 1 ≤ g.length := List.length_pos.mpr (hne g (by simp))
        rw [totalMembers_cons] at ht ⊢
        omega
    have hsplit := splitPass_sizes_of_ne_nil groups hne
    have hInv0 : BatchInv 0 ([], []) :=
      ⟨by simp, by simp, by simp [totalMembers_nil], fun _ => by omega⟩
    have hInv := foldl_batchStep_inv (splitPass groups) 0 ([], []) hInv0 hsplit
    rcases hst : (splitPass groups).foldl batchStep ([], []) with ⟨r1, p1⟩
    rw [hst] at hInv
    rw [splitPass_total] at hInv
    have hInv' : BatchInv (totalMembers groups) (r1, p1) := by
      simpa using hInv
    have hend := batchEnd_sizes (totalMembers groups) r1 p1 hInv' ht2
    have hout : reorganize_batch_groups groups = splitPass (batchEnd r1 p1) := by
      simp [reorganize_batch_groups, hemp, hst]
    rw [hout]
    exact splitPass_sizes_of_le_four _ hend

theorem totalMembers_decomp (groups : List Group) :
    totalMembers (completeGroups groups) + (incompleteMembers groups).length =
      totalMembers groups := by
  induction groups with
  | nil => rfl
  | cons g gs ih =>
    by_cases h : 3 ≤ g.length <;>
      simp [completeGroups, incompleteMembers, List.filter_cons, h,
        totalMembers_cons] at ih ⊢ <;>
      omega

theorem mem_completeGroups {g : Group} {groups : List Group} :
    g ∈ completeGroups groups ↔ g ∈ groups ∧ 3 ≤ g.length := by
  simp [completeGroups, List.mem_filter]

theorem completeGroups_eq_self (groups : List Group)
    (h : ∀ g ∈ groups, g.length = 3) : completeGroups groups = groups := by
  unfold completeGroups
  rw [List.filter_eq_self]
  intro a ha
  simp [h a ha]

theorem incompleteMembers_eq_nil (groups : List Group)
    (h : ∀ g ∈ groups, 3 ≤ g.length) : incompleteMembers groups = [] := by
  unfold incompleteMembers
  have hf : groups.filter (fun g => !decide (3 ≤ g.length)) = [] := by
    rw [List.filter_eq_nil_iff]
    intro a ha
    simp [h a ha]
  rw [hf]
  rfl

theorem ri_eq_of_len_ne_one (groups : List Group) (shuffled : List StudentId)
    (h : shuffled.length ≠ 1) :
    reorganize_incomplete_groups groups shuffled =
      completeGroups groups ++ split_into_small_groups shuffled := by
  simp only [reorganize_incomplete_groups]
  rw [if_neg h]

theorem ri_eq_no_complete (groups : List Group) (shuffled : List StudentId)
    (h : shuffled.length = 1) (hc : completeGroups groups = []) :
    reorganize_incomplete_groups groups shuffled = [] := by
  simp only [reorganize_incomplete_groups]
  rw [if_pos h, hc]
  rfl

theorem ri_eq_donor (groups : List Group) (shuffled : List StudentId)
    (h : shuffled.length = 1) (pre : List Group) (lastg : Group)
    (hc : completeGroups groups = pre ++ [lastg]) (h3 : lastg.length = 3) :
    reorganize_incomplete_groups groups shuffled =
      pre ++ [lastg.dropLast, lastg.getLastD "" :: shuffled] := by
  simp only [reorganize_incomplete_groups]
  rw [if_pos h, hc, List.getLast?_concat]
  show (if lastg.length = 3 then
      (pre ++ [lastg]).dropLast ++ [lastg.dropLast, lastg.getLastD "" :: shuffled]
    else (pre ++ [lastg]).dropLast ++ [lastg ++ shuffled]) = _
  rw [if_pos h3, List.dropLast_concat]

theorem ri_eq_append (groups : List Group) (shuffled : List StudentId)
    (h : shuffled.length = 1) (pre : List Group) (lastg : Group)
    (hc : completeGroups groups = pre ++ [lastg]) (h3 : lastg.length ≠ 3) :
    reorganize_incomplete_groups groups shuffled = pre ++ [lastg ++ shuffled] := by
  simp only [reorganize_incomplete_groups]
  rw [if_pos h, hc, List.getLast?_concat]
  show (if lastg.length = 3 then
      (pre ++ [lastg]).dropLast ++ [lastg.dropLast, lastg.getLastD "" :: shuffled]
    else (pre ++ [lastg]).dropLast ++ [lastg ++ shuffled]) = _
  rw [if_neg h3, List.dropLast_concat]

theorem reorganize_incomplete_sizes (groups : List Group)
    (shuffled : List StudentId)
    (hsz : ∀ g ∈ groups, 1 ≤ g.length ∧ g.length ≤ 3)
    (hperm : shuffled.Perm (incompleteMembers groups))
    (ht : totalMembers groups ≠ 1) :
    ∀ g ∈ reorganize_incomplete_groups groups shuffled,
      g.length = 2 ∨ g.length = 3 := by
  have hlen : shuffled.length = (incompleteMembers groups).length :=
    hperm.length_eq
  have hdec := totalMembers_decomp groups
  by_cases h1 : shuffled.length = 1
  · rcases eq_nil_or_append_single (completeGroups groups) with hc | ⟨pre, lastg, hc⟩
    · exfalso
      rw [hc] at hdec
      simp only [totalMembers_nil, Nat.zero_add] at hdec
      omega
    · have hmem : lastg ∈ completeGroups groups := by rw [hc]; simp
      have hl3 : lastg.length = 3 := by
        have h3 := (mem_completeGroups.mp hmem).2
        have hle := (hsz lastg (mem_completeGroups.mp hmem).1).2
        omega
      rw [ri_eq_donor groups shuffled h1 pre lastg hc hl3]
      intro g hg
      rcases List.mem_append.mp hg with hg1 | hg2
      · have hgc : g ∈ completeGroups groups := by
          rw [hc]
          exact List.mem_append.mpr (Or.inl hg1)
        have h3 := (mem_completeGroups.mp hgc).2
        have hle := (hsz g (mem_completeGroups.mp hgc).1).2
        omega
      · simp only [List.mem_cons, List.mem_singleton] at hg2
        rcases hg2 with rfl | rfl | hfalse
        · left
          rw [List.length_dropLast, hl3]
        · left
          simp [h1]
        · exact absurd hfalse (List.not_mem_nil g)
  · rw [ri_eq_of_len_ne_one groups shuffled h1]
    intro g hg
    rcases List.mem_append.mp hg with hg1 | hg2
    · have h3 := (mem_completeGroups.mp hg1).2
      have hle := (hsz g (mem_completeGroups.mp hg1).1).2
      omega
    · rcases Nat.lt_or_ge shuffled.length 2 with hlt | hge
      · have h0 : shuffled.length = 0 := by omega
        have hnil : shuffled = [] := List.length_eq_zero.mp h0
        subst hnil
        simp [split_into_small_groups] at hg2
      · exact split_into_small_groups_sizes shuffled hge g hg2

theorem reorganize_incomplete_no_singleton (groups : List Group)
    (shuffled : List StudentId)
    (hperm : shuffled.Perm (incompleteMembers groups))
    (ht : 2 ≤ totalMembers groups) :
    ∀ g ∈ reorganize_incomplete_groups groups shuffled, g.length ≠ 1 := by
  have hlen : shuffled.length = (incompleteMembers groups).length :=
    hperm.length_eq
  have hdec := totalMembers_decomp groups
  by_cases h1 : shuffled.length = 1
  · rcases eq_nil_or_append_single (completeGroups groups) with hc | ⟨pre, lastg, hc⟩
    · exfalso
      rw [hc] at hdec
      simp only [totalMembers_nil, Nat.zero_add] at hdec
      omega
    · have hmem : lastg ∈ completeGroups groups := by rw [hc]; simp
      have h3 : 3 ≤ lastg.length := (mem_completeGroups.mp hmem).2
      by_cases hl3 : lastg.length = 3
      · rw [ri_eq_donor groups shuffled h1 pre lastg hc hl3]
        intro g hg
        rcases List.mem_append.mp hg with hg1 | hg2
        · have hgc : g ∈ completeGroups groups := by
            rw [hc]
            exact List.mem_append.mpr (Or.inl hg1)
          have := (mem_completeGroups.mp hgc).2
          omega
        · simp only [List.mem_cons, List.mem_singleton] at hg2
          rcases hg2 with rfl | rfl | hfalse
          · rw [List.length_dropLast, hl3]
            omega
          · have hlc : (lastg.getLastD "" :: shuffled).length = 2 := by simp [h1]
            omega
          · exact absurd hfalse (List.not_mem_nil g)
      · rw [ri_eq_append groups shuffled h1 pre lastg hc hl3]
        intro g hg
        rcases List.mem_append.mp hg with hg1 | hg2
        · have hgc : g ∈ completeGroups groups := by
            rw [hc]
            exact List.mem_append.mpr (Or.inl hg1)
          have := (mem_completeGroups.mp hgc).2
          omega
        · have hge : g = lastg ++ shuffled := by simpa using hg2
          subst hge
          simp only [List.length_append, h1]
          omega
  · rw [ri_eq_of_len_ne_one groups shuffled h1]
    intro g hg
    rcases List.mem_append.mp hg with hg1 | hg2
    · have := (mem_completeGroups.mp hg1).2
      omega
    · rcases Nat.lt_or_ge shuffled.length 2 with hlt | hge
      · have h0 : shuffled.length = 0 := by omega
        have hnil : shuffled = [] := List.length_eq_zero.mp h0
        subst hnil
        simp [split_into_small_groups] at hg2
      · have := split_into_small_groups_sizes shuffled hge g hg2
        omega

theorem reorganize_incomplete_total_keep (groups : List Group)
    (shuffled : List StudentId)
    (hperm : shuffled.Perm (incompleteMembers groups))
    (h : ¬(shuffled.length = 1 ∧ completeGroups groups = [])) :
    totalMembers (reorganize_incomplete_groups groups shuffled) =
      totalMembers groups := by
  have hlen : shuffled.length = (incompleteMembers groups).length :=
    hperm.length_eq
  have hdec := totalMembers_decomp groups
  by_cases h1 : shuffled.length = 1
  · have hcne : completeGroups groups ≠ [] := fun hcc => h ⟨h1, hcc⟩
    rcases eq_nil_or_append_single (completeGroups groups) with hcc | ⟨pre, lastg, hcc⟩
    · exact absurd hcc hcne
    · have hcg : totalMembers (completeGroups groups) =
          totalMembers pre + lastg.length := by
        rw [hcc]
        simp [totalMembers_append, totalMembers_cons, totalMembers_nil]
      by_cases hl3 : lastg.length = 3
      · rw [ri_eq_donor groups shuffled h1 pre lastg hcc hl3]
        simp only [totalMembers_append, totalMembers_cons, totalMembers_nil,
          List.length_dropLast, List.length_cons, hl3, h1]
        omega
      · rw [ri_eq_append groups shuffled h1 pre lastg hcc hl3]
        simp only [totalMembers_append, totalMembers_cons, totalMembers_nil,
          List.length_append, h1]
        omega
  · rw [ri_eq_of_len_ne_one groups shuffled h1]
    rw [totalMembers_append, split_into_small_groups_total]
    omega

theorem reorganize_incomplete_total_drop (groups : List Group)
    (shuffled : List StudentId)
    (hperm : shuffled.Perm (incompleteMembers groups))
    (h1 : shuffled.length = 1) (hc : completeGroups groups = []) :
    totalMembers (reorganize_incomplete_groups groups shuffled) =
      totalMembers groups - 1 ∧ totalMembers groups = 1 := by
  have hlen : shuffled.length = (incompleteMembers groups).length :=
    hperm.length_eq
  have hdec := totalMembers_decomp groups
  rw [hc] at hdec
  simp only [totalMembers_nil, Nat.zero_add] at hdec
  rw [ri_eq_no_complete groups shuffled h1 hc]
  constructor
  · simp [totalMembers_nil]
    omega
  · omega

theorem groups_of_total_one (groups : List Group)
    (h1 : ∀ g ∈ groups, 1 ≤ g.length) (h : totalMembers groups = 1) :
    ∃ s, groups = [[s]] := by
  rcases groups with _ | ⟨g, gs⟩
  · simp [totalMembers_nil] at h
  · have hg := h1 g (by simp)
    rw [totalMembers_cons] at h
    have hgs0 : totalMembers gs = 0 := by omega
    have hg1 : g.length = 1 := by omega
    have hgs : gs = [] := by
      rcases gs with _ | ⟨g2, gs2⟩
      · rfl
      · have := h1 g2 (by simp)
        rw [totalMembers_cons] at hgs0
        omega
    subst hgs
    obtain ⟨s, rfl⟩ := List.length_eq_one.mp hg1
    exact ⟨s, rfl⟩

theorem ri_full_identity (groups : List Group) (shuffled : List StudentId)
    (hsz : ∀ g ∈ groups, g.length = 3)
    (hperm : shuffled.Perm (incompleteMembers groups)) :
    reorganize_incomplete_groups groups shuffled = groups := by
  have hinc : incompleteMembers groups = [] :=
    incompleteMembers_eq_nil groups (fun g hg => by rw [hsz g hg])
  have hsh : shuffled = [] := by
    rw [hinc] at hperm
    exact hperm.eq_nil
  subst hsh
  rw [ri_eq_of_len_ne_one groups [] (by simp)]
  rw [completeGroups_eq_self groups hsz]
  simp [split_into_small_groups]

theorem loopConsume_ge5 (n : Nat) (h : 5 ≤ n) : loopConsume n = 3 := by
  unfold loopConsume
  rw [if_pos (by omega), if_neg (by omega)]

theorem loopStates_eq (r : Nat) (h : r ≠ 0) :
    loopStates r = r :: loopStates (r - loopConsume r) := by
  rw [loopStates]
  rw [dif_neg h]

theorem loopStates_zero : loopStates 0 = [] := by
  rw [loopStates]
  simp

/-- C1 counterexample: the input holding a single identifier in total has, in
batch mode, an output of one group (of size 1), not the zero groups the claim
asserts for the total-member-count-1 exception. -/
theorem c1_counterexample :
    totalMembers ([["S1"]] : List Group) = 1 ∧
    reorganize_batch_groups [["S1"]] = [["S1"]] ∧
    ¬reorganize_batch_groups [["S1"]] = [] ∧
    ∃ g ∈ reorganize_batch_groups [["S1"]], ¬(g.length = 2 ∨ g.length = 3) := by
  decide

/-- C1 (amended): for every input whose groups all have 1 to 3 members and
every shuffle of the partial-group pool, each group returned by either
reorganizer has exactly 2 or 3 members, except when the total member count is
1: then reorganize_incomplete_groups returns zero groups, while
reorganize_batch_groups returns the lone member as a single group of size 1. -/
theorem c1_sizes_amended (groups : List Group) (shuffled : List StudentId)
    (hsz : ∀ g ∈ groups, 1 ≤ g.length ∧ g.length ≤ 3)
    (hperm : shuffled.Perm (incompleteMembers groups)) :
    (totalMembers groups ≠ 1 →
      (∀ g ∈ reorganize_incomplete_groups groups shuffled,
        g.length = 2 ∨ g.length = 3) ∧
      (∀ g ∈ reorganize_batch_groups groups, g.length = 2 ∨ g.length = 3)) ∧
    (totalMembers groups = 1 →
      reorganize_incomplete_groups groups shuffled = [] ∧
      ∃ s, reorganize_batch_groups groups = [[s]]) := by
  constructor
  · intro ht
    refine ⟨reorganize_incomplete_sizes groups shuffled hsz hperm ht, ?_⟩
    intro g hg
    have hne : ∀ x ∈ groups, x ≠ [] := by
      intro x hx
      have := (hsz x hx).1
      exact List.ne_nil_of_length_pos (by omega)
    have := reorganize_batch_sizes groups hne ht g hg
    omega
  · intro ht
    obtain ⟨s, rfl⟩ := groups_of_total_one groups (fun g hg => (hsz g hg).1) ht
    have hinc : incompleteMembers [[s]] = [s] := by simp [incompleteMembers]
    rw [hinc] at hperm
    have hs : shuffled = [s] := List.perm_singleton.mp hperm
    subst hs
    exact ⟨ri_eq_no_complete [[s]] [s] rfl (by simp [completeGroups]), ⟨s, rfl⟩⟩

/-- C1 witness: a concrete instance of the amended size bound, at the input
of a 2-group and a 1-group with pool shuffle [c, a, b]. -/
theorem c1_witness :
    (["c", "a", "b"] : Group).length = 2 ∨ (["c", "a", "b"] : Group).length = 3 :=
  ((c1_sizes_amended [["a", "b"], ["c"]] ["c", "a", "b"] (by decide)
    (by decide)).1 (by decide)).1 ["c", "a", "b"] (by decide)

/-- C2 counterexample: on the single-identifier input, incremental mode drops
the member, so the output member total differs from the input total. -/
theorem c2_counterexample :
    List.Perm ["S1"] (incompleteMembers ([["S1"]] : List Group)) ∧
    ¬totalMembers (reorganize_incomplete_groups [["S1"]] ["S1"]) =
      totalMembers ([["S1"]] : List Group) := by
  decide

/-- C2 (amended): reorganize_batch_groups always conserves the total member
count; reorganize_incomplete_groups conserves it except when the shuffled pool
has exactly one member and there is no complete group, in which case the lone
member is dropped and the output total is the input total minus 1. -/
theorem c2_conservation_amended (groups : List Group) (shuffled : List StudentId)
    (hperm : shuffled.Perm (incompleteMembers groups)) :
    totalMembers (reorganize_batch_groups groups) = totalMembers groups ∧
    (¬(shuffled.length = 1 ∧ completeGroups groups = []) →
      totalMembers (reorganize_incomplete_groups groups shuffled) =
        totalMembers groups) ∧
    ((shuffled.length = 1 ∧ completeGroups groups = []) →
      totalMembers (reorganize_incomplete_groups groups shuffled) =
        totalMembers groups - 1) :=
  ⟨reorganize_batch_total groups,
    fun h => reorganize_incomplete_total_keep groups shuffled hperm h,
    fun h => (reorganize_incomplete_total_drop groups shuffled hperm h.1 h.2).1⟩

/-- C2 witness: conservation of the batch reorganizer at a concrete input. -/
theorem c2_witness :
    totalMembers (reorganize_batch_groups [["a", "b"]]) =
      totalMembers [["a", "b"]] :=
  (c2_conservation_amended [["a", "b"]] ["b", "a"] (by decide)).1

/-- C3 counterexample: with an empty group in the input (reachable through the
delete command), batch mode emits a size-1 group although the total member
count is at least 2. -/
theorem c3_counterexample :
    2 ≤ totalMembers ([[], ["a"], ["b", "c"]] : List Group) ∧
    ∃ g ∈ reorganize_batch_groups [[], ["a"], ["b", "c"]], g.length = 1 := by
  decide

/-- C3 (amended): for every input whose groups are all nonempty and whose
total member count is at least 2, no group returned by either reorganizer has
size 1. -/
theorem c3_no_singleton_amended (groups : List Group) (shuffled : List StudentId)
    (hne : ∀ g ∈ groups, g ≠ [])
    (hperm : shuffled.Perm (incompleteMembers groups))
    (ht : 2 ≤ totalMembers groups) :
    (∀ g ∈ reorganize_incomplete_groups groups shuffled, g.length ≠ 1) ∧
    (∀ g ∈ reorganize_batch_groups groups, g.length ≠ 1) := by
  refine ⟨reorganize_incomplete_no_singleton groups shuffled hperm ht, ?_⟩
  intro g hg
  have := reorganize_batch_sizes groups hne (by omega) g hg
  omega

/-- C3 witness: a concrete instance of the no-singleton law at two singleton
input groups with pool shuffle [b, a]. -/
theorem c3_witness : (["b", "a"] : Group).length ≠ 1 :=
  (c3_no_singleton_amended [["a"], ["b"]] ["b", "a"] (by decide) (by decide)
    (by decide)).1 ["b", "a"] (by decide)

/-- C4 counterexample: on the single-identifier input, batch mode emits the
identifier as one group of size 1 instead of returning an empty partition. -/
theorem c4_counterexample :
    reorganize_batch_groups [["S1"]] = [["S1"]] ∧
    ¬reorganize_batch_groups [["S1"]] = [] := by
  decide

/-- C4 (amended): on the input holding exactly one identifier (a single
size-1 group and nothing else), reorganize_incomplete_groups returns an empty
partition (the condition is surfaced only as a console warning, never as an
error value), while reorganize_batch_groups emits the lone identifier as a
single group of size 1 (also without any error value). -/
theorem c4_single_member_amended (s : StudentId) (shuffled : List StudentId)
    (hperm : shuffled.Perm (incompleteMembers [[s]])) :
    reorganize_incomplete_groups [[s]] shuffled = [] ∧
    reorganize_batch_groups [[s]] = [[s]] := by
  have hinc : incompleteMembers [[s]] = [s] := by simp [incompleteMembers]
  rw [hinc] at hperm
  have hs : shuffled = [s] := List.perm_singleton.mp hperm
  subst hs
  exact ⟨ri_eq_no_complete [[s]] [s] rfl (by simp [completeGroups]), rfl⟩

/-- C4 witness: the amended single-identifier behaviour at a concrete input. -/
theorem c4_witness :
    reorganize_incomplete_groups [["S9"]] ["S9"] = [] ∧
    reorganize_batch_groups [["S9"]] = [["S9"]] :=
  c4_single_member_amended "S9" ["S9"] (by decide)

/-- C5: for every input list of groups of size at most 3, every input group
with exactly 3 members appears unchanged in the output of
reorganize_incomplete_groups, except that when the pool of partial-group
members has size exactly 1 (and a complete group exists), the last complete
group donates its last member, becoming the size-2 group d, and a new size-2
group appears containing the borrowed member m followed by the lone pool
member s. -/
theorem c5_full_group_preservation (groups : List Group)
    (shuffled : List StudentId) (hsz : ∀ g ∈ groups, g.length ≤ 3)
    (hperm : shuffled.Perm (incompleteMembers groups)) :
    (¬(shuffled.length = 1 ∧ completeGroups groups ≠ []) →
      ∀ g ∈ groups, g.length = 3 →
        g ∈ reorganize_incomplete_groups groups shuffled) ∧
    (∀ s, shuffled = [s] → completeGroups groups ≠ [] →
      ∃ pre d m, completeGroups groups = pre ++ [d ++ [m]] ∧ d.length = 2 ∧
        reorganize_incomplete_groups groups shuffled = pre ++ [d, [m, s]]) := by
  constructor
  · intro h g hg h3
    have hgc : g ∈ completeGroups groups := mem_completeGroups.mpr ⟨hg, by omega⟩
    by_cases h1 : shuffled.length = 1
    · have hc : completeGroups groups = [] := by
        by_contra hcc
        exact h ⟨h1, hcc⟩
      rw [hc] at hgc
      exact absurd hgc (List.not_mem_nil g)
    · rw [ri_eq_of_len_ne_one groups shuffled h1]
      exact List.mem_append.mpr (Or.inl hgc)
  · intro s hs hcne
    subst hs
    rcases eq_nil_or_append_single (completeGroups groups) with hc | ⟨pre, lastg, hc⟩
    · exact absurd hc hcne
    · have hmem : lastg ∈ completeGroups groups := by rw [hc]; simp
      have hl3 : lastg.length = 3 := by
        have ha := (mem_completeGroups.mp hmem).2
        have hb := hsz lastg (mem_completeGroups.mp hmem).1
        omega
      rcases eq_nil_or_append_single lastg with hlnil | ⟨d, m, hld⟩
      · rw [hlnil] at hl3
        simp at hl3
      · refine ⟨pre, d, m, ?_, ?_, ?_⟩
        · rw [← hld]
          exact hc
        · have hdl : lastg.length = d.length + 1 := by rw [hld]; simp
          omega
        · rw [ri_eq_donor groups [s] rfl pre lastg hc hl3, hld]
          simp [List.dropLast_concat, List.getLastD_concat]

/-- C5 witness: full-group preservation at a concrete mixed input whose pool
has two members. -/
theorem c5_witness :
    (["a", "b", "c"] : Group) ∈
      reorganize_incomplete_groups [["a", "b", "c"], ["d", "e"]] ["e", "d"] :=
  (c5_full_group_preservation [["a", "b", "c"], ["d", "e"]] ["e", "d"]
    (by decide) (by decide)).1 (by decide) ["a", "b", "c"] (by decide) (by decide)

/-- C6: in batch mode, one input group of 7 members yields exactly the
split_into_small_groups chunks, whose sizes are [3, 2, 2] in that order; and
split_into_small_groups on any list of at least 2 members produces consecutive
front-to-back chunks (their concatenation is the input) all of size 2 or 3. -/
theorem c6_batch_seven :
    (∀ l : List StudentId, l.length = 7 →
      reorganize_batch_groups [l] = split_into_small_groups l ∧
      (split_into_small_groups l).map List.length = [3, 2, 2]) ∧
    (∀ l : List StudentId, 2 ≤ l.length →
      (split_into_small_groups l).flatten = l ∧
      ∀ c ∈ split_into_small_groups l, c.length = 2 ∨ c.length = 3) := by
  constructor
  · intro l hl
    have hchunks := split_into_small_groups_sizes l (by omega)
    have hsp : splitPass [l] = split_into_small_groups l := by
      rw [splitPass_cons, if_neg (by omega), splitPass_nil, List.append_nil]
    have hne1 : ∀ g ∈ split_into_small_groups l, g.length ≠ 1 := by
      intro g hg
      have := hchunks g hg
      omega
    have hout : reorganize_batch_groups [l] = split_into_small_groups l := by
      have hemp : ([l] : List Group).isEmpty = false := rfl
      simp only [reorganize_batch_groups, hemp, Bool.false_eq_true, if_false]
      rw [hsp, foldl_batchStep_no_singleton (split_into_small_groups l) [] hne1]
      simp only [List.nil_append]
      have hbe : batchEnd (split_into_small_groups l) [] =
          split_into_small_groups l := by simp [batchEnd]
      rw [hbe]
      exact splitPass_id _ (fun g hg => by have := hchunks g hg; omega)
    refine ⟨hout, ?_⟩
    rcases l with _ | ⟨a, l⟩
    · simp at hl
    rcases l with _ | ⟨b, l⟩
    · simp at hl
    rcases l with _ | ⟨c, l⟩
    · simp at hl
    rcases l with _ | ⟨d, l⟩
    · simp at hl
    rcases l with _ | ⟨e, l⟩
    · simp at hl
    rcases l with _ | ⟨f, l⟩
    · simp at hl
    rcases l with _ | ⟨g', l⟩
    · simp at hl
    have hnil : l = [] := by
      simp only [List.length_cons] at hl
      exact List.length_eq_zero.mp (by omega)
    subst hnil
    rfl
  · intro l hl
    exact ⟨split_into_small_groups_flatten l, split_into_small_groups_sizes l hl⟩

/-- C6 witness: the 7-member batch scenario at a concrete input. -/
theorem c6_witness :
    reorganize_batch_groups [["a", "b", "c", "d", "e", "f", "g"]] =
      split_into_small_groups ["a", "b", "c", "d", "e", "f", "g"] :=
  (c6_batch_seven.1 ["a", "b", "c", "d", "e", "f", "g"] (by decide)).1

/-- C7: reorganize_incomplete_groups maps every input consisting only of full
(exactly size-3) groups to exactly those groups, unchanged and in order. -/
theorem c7_full_groups_idempotent (groups : List Group)
    (shuffled : List StudentId) (hsz : ∀ g ∈ groups, g.length = 3)
    (hperm : shuffled.Perm (incompleteMembers groups)) :
    reorganize_incomplete_groups groups shuffled = groups :=
  ri_full_identity groups shuffled hsz hperm

/-- C7 witness: idempotence at one concrete full group. -/
theorem c7_witness :
    reorganize_incomplete_groups [["a", "b", "c"]] [] = [["a", "b", "c"]] :=
  c7_full_groups_idempotent [["a", "b", "c"]] [] (by decide) (by decide)

set_option maxHeartbeats 2000000 in
set_option maxRecDepth 100000 in
/-- C8: group_index_to_letter maps every index 0 to 25 to the corresponding
single letter A to Z (character code 65 + index), and every index 26 to 701 to
the two-letter base-26 code with first letter index / 26 - 1 and second letter
index mod 26, aligned so that index 26 maps to AA. -/
theorem c8_letter_labels :
    (∀ i, i < 26 →
      group_index_to_letter i = some (String.mk [Char.ofNat (65 + i)])) ∧
    (∀ i, i < 702 → 26 ≤ i →
      group_index_to_letter i =
        some (String.mk [Char.ofNat (65 + (i / 26 - 1)),
          Char.ofNat (65 + i % 26)])) ∧
    group_index_to_letter 26 = some "AA" := by
  decide

/-- C8 witness: the two-letter scheme at index 700. -/
theorem c8_witness :
    group_index_to_letter 700 =
      some (String.mk [Char.ofNat (65 + (700 / 26 - 1)),
        Char.ofNat (65 + 700 % 26)]) :=
  c8_letter_labels.2.1 700 (by decide) (by decide)

/-- C9: for every pool size n of at least 2, the chunk-consuming loop of
reorganize_incomplete_groups terminates with the whole pool consumed (the
chunk sizes sum to n), every iteration consumes 2 or 3 members, and the
remaining count at the start of an iteration is never exactly 1. -/
theorem c9_loop_termination (n : Nat) (h2 : 2 ≤ n) :
    ((loopStates n).map loopConsume).sum = n ∧
    ∀ r ∈ loopStates n, r ≠ 1 ∧ (loopConsume r = 2 ∨ loopConsume r = 3) := by
  induction n using Nat.strong_induction_on with
  | _ n ih =>
    rw [loopStates_eq n (by omega)]
    by_cases h23 : n = 2 ∨ n = 3
    · have hc : loopConsume n = n := by
        rcases h23 with rfl | rfl <;> decide
      have hnext : n - loopConsume n = 0 := by omega
      rw [hnext, loopStates_zero]
      constructor
      · simp [hc]
      · intro r hr
        have hrn : r = n := by simpa using hr
        subst hrn
        refine ⟨by omega, ?_⟩
        rw [hc]
        omega
    · have hn4 : n = 4 ∨ 5 ≤ n := by omega
      have hc : loopConsume n = 2 ∨ loopConsume n = 3 := by
        rcases hn4 with rfl | h5
        · left
          decide
        · right
          exact loopConsume_ge5 n h5
      have hc4 : n = 4 → loopConsume n = 2 := by
        rintro rfl
        decide
      have hnext2 : 2 ≤ n - loopConsume n := by
        rcases hn4 with rfl | h5
        · rw [hc4 rfl]
        · rw [loopConsume_ge5 n h5]
          omega
      have hlt : n - loopConsume n < n := by
        rcases hc with hcc | hcc <;> omega
      obtain ⟨ihsum, ihmem⟩ := ih (n - loopConsume n) hlt hnext2
      constructor
      · simp only [List.map_cons, List.sum_cons, ihsum]
        rcases hc with hcc | hcc <;> omega
      · intro r hr
        rcases List.mem_cons.mp hr with rfl | hr2
        · exact ⟨by omega, hc⟩
        · exact ihmem r hr2

/-- C9 witness: the loop model at a pool of 7 members consumes all 7. -/
theorem c9_witness : ((loopStates 7).map loopConsume).sum = 7 :=
  (c9_loop_termination 7 (by decide)).1

/-- C10: for every index of at least 702, the two-letter branch of
group_index_to_letter computes a first-letter position of 26 or more, the
alphabet lookup yields no character, and the embedded function returns none
(the Rust unwrap would panic). -/
theorem c10_label_overflow (i : Nat) (h : 702 ≤ i) :
    26 ≤ i / 26 - 1 ∧ group_index_to_letter i = none := by
  have hd : 27 ≤ i / 26 := by
    rw [Nat.le_div_iff_mul_le (by norm_num)]
    omega
  have hlen : alphabet.length = 26 := rfl
  refine ⟨by omega, ?_⟩
  simp only [group_index_to_letter]
  rw [if_neg (by rw [hlen]; omega)]
  have hfirst : alphabet.get? (i / 26 - 1) = none := by
    rw [List.get?_eq_none]
    rw [hlen]
    omega
  rw [hfirst]

/-- C10 witness: the first out-of-range index, 702. -/
theorem c10_witness : 26 ≤ 702 / 26 - 1 ∧ group_index_to_letter 702 = none :=
  c10_label_overflow 702 (by decide)

end GroupingTool
